import Mathlib

/-!
Verification of the `03_finalize_fbref` finalizer script: a single-pass ETL
over a table of player-season records.  The script is embedded shallowly:
dataframe cells become an inductive `Cell` type (missing / string / numeric),
tables become a column-name list plus row lists, and each helper of the
script (`coalesce`, `build_canonical`, `drop_redundant_source_cols`,
`clean_strings`, `coerce_nullable_ints`, `coerce_floats`, `dedupe_rows`,
the season split and the CSV/parquet persist step of `main`) becomes an
executable Lean function with the same name.
-/

namespace PkwonFinalize

/-! ## Cells and numeric parsing

A dataframe cell is either missing (`NaN`/`pd.NA`), a string, or a number.
Numbers are modelled as rationals: they cover both the nullable-integer and
the float columns of the script, and `Int64` representability is expressed
as having denominator one.
-/

/-- A single dataframe cell: missing, a string, or a numeric value. -/
inductive Cell where
  | na : Cell
  | str : String → Cell
  | num : ℚ → Cell
deriving DecidableEq

/-- Numeric value of one decimal digit character. -/
def digitVal (c : Char) : ℕ := c.toNat - '0'.toNat

/-- Value of a list of decimal digit characters, most significant first. -/
def digitsVal (l : List Char) : ℕ := l.foldl (fun n c => 10 * n + digitVal c) 0

/-- Both-ends whitespace trim on a character list (the tolerance of
`pd.to_numeric` for surrounding whitespace in a string). -/
def trimChars (l : List Char) : List Char :=
  ((l.dropWhile Char.isWhitespace).reverse.dropWhile Char.isWhitespace).reverse

/-- Parse an unsigned decimal literal: digits with an optional single decimal
point, at least one digit overall (`"12"`, `"1."`, `".5"`); anything else is
a parse failure. -/
def parseUnsigned (l : List Char) : Option ℚ :=
  let intPart := l.takeWhile (fun c => !(c == '.'))
  match l.dropWhile (fun c => !(c == '.')) with
  | [] =>
    if !intPart.isEmpty && intPart.all Char.isDigit then
      some (digitsVal intPart)
    else
      none
  | _ :: frac =>
    if !frac.contains '.' && !(intPart.isEmpty && frac.isEmpty)
        && intPart.all Char.isDigit && frac.all Char.isDigit then
      some ((digitsVal intPart : ℚ) + (digitsVal frac : ℚ) / (10 : ℚ) ^ frac.length)
    else
      none

/-- Parse an optionally signed decimal literal. -/
def parseSigned : List Char → Option ℚ
  | [] => none
  | c :: rest =>
    if c = '-' then (parseUnsigned rest).map (fun q => -q)
    else if c = '+' then parseUnsigned rest
    else parseUnsigned (c :: rest)

/-- Model of `pd.to_numeric(s, errors="coerce")` on a single string: trim
surrounding whitespace, then parse a signed decimal literal; failures give
`none` (the script relies on `errors="coerce"` mapping them to `NaN`). -/
def to_numeric (s : String) : Option ℚ := parseSigned (trimChars s.toList)

/-- Model of `Series.str.replace(c, "")`: delete every occurrence of one
character. -/
def removeChar (c : Char) (s : String) : String :=
  String.mk (s.toList.filter (fun d => !(d == c)))

/-- Model of `str.replace(r" | ", "", regex=True)`: delete every
thin-space and every no-break-space character. -/
def removeThinNbsp (s : String) : String :=
  String.mk (s.toList.filter (fun d => !(d == ' ' || d == ' ')))

/-- The sanitizer of `coerce_nullable_ints`, applied to string-typed (object
dtype) columns before parsing: remove thin/no-break spaces, then commas, then
em-dashes, then plain dashes, in the order of the script. -/
def sanitize (s : String) : String :=
  removeChar '-' (removeChar '—' (removeChar ',' (removeThinNbsp s)))

/-- The characters deleted by `sanitize`. -/
def junkChars : List Char := [' ', ' ', ',', '—', '-']

/-- Per-value behaviour of `coerce_nullable_ints` on a string-typed value of
an object-dtype column: sanitize, then parse numerically. -/
def coerce_string_value (s : String) : Option ℚ := to_numeric (sanitize s)

/-- `Int64` representability of a parsed value: integral rationals only
(`astype("Int64")` succeeds exactly on whole numbers). -/
def ratToInt64 (q : ℚ) : Option ℤ := if q.den = 1 then some q.num else none

/-- Does a cell survive `pd.to_numeric` without coercion to `NaN`?  Used to
model dtype inference: a column is object-dtype exactly when some non-missing
cell does not parse numerically. -/
def cellParses : Cell → Bool
  | .na => true
  | .str s => (to_numeric s).isSome
  | .num _ => true

/-- A column is object-dtype (string-typed) when some cell fails numeric
parsing; numeric columns inferred by `read_csv` parse throughout. -/
def columnIsObject (col : List Cell) : Bool := col.any (fun c => !cellParses c)

/-- Per-cell action of `coerce_nullable_ints`: sanitize string cells when the
column is object dtype, parse numerically, and turn parse failures into
missing values. -/
def coerceIntCell (objectDtype : Bool) : Cell → Cell
  | .na => .na
  | .str s =>
    match to_numeric (if objectDtype then sanitize s else s) with
    | some q => .num q
    | none => .na
  | .num q => .num q

/-- Per-cell action of `coerce_floats`: plain numeric parsing with coercion
of failures to missing, no sanitization. -/
def coerceFloatCell : Cell → Cell
  | .na => .na
  | .str s =>
    match to_numeric s with
    | some q => .num q
    | none => .na
  | .num q => .num q

/-- Per-cell action of `clean_strings`: trim surrounding whitespace and turn
the empty string into a missing value. -/
def cleanCell : Cell → Cell
  | .na => .na
  | .str s =>
    let t := String.mk (trimChars s.toList)
    if t = "" then .na else .str t
  | .num q => .num q

/-! ### Basic facts about sanitize and parsing -/

theorem removeChar_toList (c : Char) (s : String) :
    (removeChar c s).toList = s.toList.filter (fun d => !(d == c)) := rfl

theorem sanitize_eq_filters (s : String) :
    sanitize s = String.mk ((((s.toList.filter
        (fun d => !(d == ' ' || d == ' '))).filter
        (fun d => !(d == ','))).filter
        (fun d => !(d == '—'))).filter
        (fun d => !(d == '-'))) := rfl

/-- A decimal digit is none of the characters deleted by the sanitizer. -/
theorem digit_ne_junk {c : Char} (h : c.isDigit = true) :
    ∀ j ∈ junkChars, c ≠ j := by
  intro j hj hc
  subst hc
  simp only [junkChars, List.mem_cons, List.not_mem_nil, or_false] at hj
  rcases hj with h1 | h1 | h1 | h1 | h1 <;> subst h1 <;> exact absurd h (by decide)

theorem sanitize_eq_filter (s : String) :
    sanitize s = String.mk (s.toList.filter (fun d => !junkChars.contains d)) := by
  rw [sanitize_eq_filters]
  simp only [List.filter_filter]
  congr 1
  apply List.filter_congr
  intro a _
  by_cases h1 : a = ' ' <;> by_cases h2 : a = ' ' <;>
    by_cases h3 : a = ',' <;> by_cases h4 : a = '—' <;> by_cases h5 : a = '-' <;>
    simp [junkChars, h1, h2, h3, h4, h5]

theorem digit_not_whitespace {c : Char} (h : c.isDigit = true) :
    c.isWhitespace = false := by
  by_cases h1 : c = ' '
  · subst h1; exact absurd h (by decide)
  by_cases h2 : c = '\t'
  · subst h2; exact absurd h (by decide)
  by_cases h3 : c = '\r'
  · subst h3; exact absurd h (by decide)
  by_cases h4 : c = '\n'
  · subst h4; exact absurd h (by decide)
  simp [Char.isWhitespace, h1, h2, h3, h4]

theorem trimChars_eq_self {l : List Char} (h : ∀ c ∈ l, c.isWhitespace = false) :
    trimChars l = l := by
  have hdrop : ∀ m : List Char, (∀ c ∈ m, c.isWhitespace = false) →
      m.dropWhile Char.isWhitespace = m := by
    intro m hm
    cases m with
    | nil => rfl
    | cons a t => simp [List.dropWhile_cons, hm a (by simp)]
  unfold trimChars
  rw [hdrop l h, hdrop l.reverse (by intro c hc; exact h c (List.mem_reverse.mp hc)),
    List.reverse_reverse]

theorem trimChars_of_digits {l : List Char} (h : l.all Char.isDigit = true) :
    trimChars l = l :=
  trimChars_eq_self fun c hc =>
    digit_not_whitespace (by simpa using (List.all_eq_true.mp h c hc))

theorem parseUnsigned_digits {l : List Char} (hne : l ≠ [])
    (h : l.all Char.isDigit = true) : parseUnsigned l = some (digitsVal l) := by
  have hdot : ∀ c ∈ l, (c == '.') = false := by
    intro c hc
    have hd : c.isDigit = true := by simpa using (List.all_eq_true.mp h c hc)
    simp only [beq_eq_false_iff_ne, ne_eq]
    intro hc'
    subst hc'
    exact absurd hd (by decide)
  have htake : l.takeWhile (fun c => !(c == '.')) = l := by
    apply List.takeWhile_eq_self_iff.mpr
    intro c hc
    simp [hdot c hc]
  have hdrop : l.dropWhile (fun c => !(c == '.')) = [] := by
    apply List.dropWhile_eq_nil_iff.mpr
    intro c hc
    simp [hdot c hc]
  unfold parseUnsigned
  rw [hdrop]
  simp [htake, hne, h]

theorem parseSigned_of_digits {l : List Char} (hne : l ≠ [])
    (h : l.all Char.isDigit = true) : parseSigned l = parseUnsigned l := by
  obtain ⟨a, t, rfl⟩ := List.exists_cons_of_ne_nil hne
  have ha : a.isDigit = true := by simpa using (List.all_eq_true.mp h a (by simp))
  have h1 : a ≠ '-' := by intro hc; subst hc; exact absurd ha (by decide)
  have h2 : a ≠ '+' := by intro hc; subst hc; exact absurd ha (by decide)
  simp [parseSigned, h1, h2]

theorem to_numeric_of_digits {s : String} (hne : s.toList ≠ [])
    (h : s.toList.all Char.isDigit = true) :
    to_numeric s = some (digitsVal s.toList) := by
  unfold to_numeric
  rw [trimChars_of_digits h, parseSigned_of_digits hne h, parseUnsigned_digits hne h]

theorem digit_contains_junk_false {a : Char} (ha : a.isDigit = true) :
    junkChars.contains a = false := by
  cases hc : junkChars.contains a with
  | false => rfl
  | true =>
    obtain ⟨b, hb, hab⟩ := List.contains_iff_exists_mem_beq.mp hc
    exact absurd (by simpa using hab) (digit_ne_junk ha b hb)

theorem sanitize_of_digits {s : String} (h : s.toList.all Char.isDigit = true) :
    sanitize s = s := by
  rw [sanitize_eq_filter]
  rw [List.filter_eq_self.mpr]
  · rfl
  · intro a ha
    rw [digit_contains_junk_false (by simpa using (List.all_eq_true.mp h a ha))]
    rfl

theorem sanitize_dash_digits {s : String} (h : s.toList.all Char.isDigit = true) :
    sanitize ("-" ++ s) = s := by
  rw [sanitize_eq_filter]
  have : ("-" ++ s).toList = '-' :: s.toList := by
    show ("-" ++ s).data = '-' :: s.data
    rw [String.data_append]
    rfl
  rw [this, List.filter_cons, if_neg (by decide)]
  rw [List.filter_eq_self.mpr]
  · rfl
  · intro a ha
    rw [digit_contains_junk_false (by simpa using (List.all_eq_true.mp h a ha))]
    rfl

/-- C5.  Integer-column coercion on a string-typed value first deletes
thin/no-break spaces, commas, em-dashes and plain dashes, then parses; the
value `"1,234"` becomes the integer 1234, a lone `"—"` or `"-"` becomes
missing (not zero), and any value that still fails numeric parsing becomes
missing rather than raising. -/
theorem claim_C5 :
    (∀ s : String, coerce_string_value s =
        to_numeric (String.mk (s.toList.filter (fun d => !junkChars.contains d)))) ∧
    coerce_string_value "1,234" = some 1234 ∧
    (coerce_string_value "1,234").bind ratToInt64 = some 1234 ∧
    coerce_string_value "—" = none ∧
    coerce_string_value "-" = none ∧
    coerce_string_value "abc" = none ∧
    (∀ s : String, coerceIntCell true (Cell.str s) =
        (coerce_string_value s).elim Cell.na Cell.num) := by
  refine ⟨?_, by decide, by decide, by decide, by decide, by decide, ?_⟩
  · intro s
    unfold coerce_string_value
    rw [sanitize_eq_filter]
  · intro s
    unfold coerceIntCell coerce_string_value
    cases h : to_numeric (sanitize s) <;> simp [h]

/-- C9.  In an object-dtype integer column, a string of a minus sign followed
by digits loses its sign: the dash is deleted by the sanitizer before
parsing, so the coerced value is the absolute value of the number, whereas
plain numeric parsing of the same string yields the negative value. -/
theorem claim_C9 (s : String) (hne : s.toList ≠ [])
    (h : s.toList.all Char.isDigit = true) :
    coerce_string_value ("-" ++ s) = some (digitsVal s.toList) ∧
    to_numeric ("-" ++ s) = some (-(digitsVal s.toList : ℚ)) := by
  constructor
  · unfold coerce_string_value
    rw [sanitize_dash_digits h, to_numeric_of_digits hne h]
  · unfold to_numeric
    have hlist : ("-" ++ s).toList = '-' :: s.toList := by
      show ("-" ++ s).data = '-' :: s.data
      rw [String.data_append]
      rfl
    rw [hlist, trimChars_eq_self, parseSigned]
    · rw [if_pos rfl, parseUnsigned_digits hne h]
      rfl
    · intro c hc
      rcases List.mem_cons.mp hc with rfl | hc
      · decide
      · exact digit_not_whitespace (by simpa using (List.all_eq_true.mp h c hc))

theorem claim_C9_witness :
    coerce_string_value ("-" ++ "5") = some 5 ∧
    to_numeric ("-" ++ "5") = some (-5) := by
  have h := claim_C9 "5" (by decide) (by decide)
  refine ⟨h.1.trans ?_, h.2.trans ?_⟩ <;> decide

/-! ## Tables

A dataframe is a list of column labels plus row-major cell lists; a
well-formed table has one cell per column in every row (`read_csv` only
produces rectangular frames).  Label lookup follows pandas: the first
column with the requested label.
-/

/-- A dataframe: ordered column labels and row-major cells. -/
structure Table where
  cols : List String
  rows : List (List Cell)
deriving DecidableEq

/-- Rectangularity: every row has one cell per column. -/
def Table.WF (t : Table) : Prop := ∀ r ∈ t.rows, r.length = t.cols.length

/-- The cell of one row under the first column labelled `n` (cells beyond a
short row read as missing). -/
def lookupD : List String → List Cell → String → Cell
  | [], _, _ => .na
  | c :: cs, r, n => if c = n then r.headD .na else lookupD cs r.tail n

/-- Write `v` into the cell of one row under the first column labelled `n`. -/
def rowSet : List String → List Cell → String → Cell → List Cell
  | [], r, _, _ => r
  | c :: cs, r, n, v =>
    if c = n then v :: r.tail else r.headD .na :: rowSet cs r.tail n v

/-- Assign a value list to the existing column labelled `n`, one value per
row in order. -/
def setColRows (cols : List String) (n : String) :
    List (List Cell) → List Cell → List (List Cell)
  | [], _ => []
  | r :: rs, [] => rowSet cols r n .na :: setColRows cols n rs []
  | r :: rs, v :: vs => rowSet cols r n v :: setColRows cols n rs vs

/-- Append a fresh rightmost column, one value per row in order. -/
def appendColRows : List (List Cell) → List Cell → List (List Cell)
  | [], _ => []
  | r :: rs, [] => (r ++ [Cell.na]) :: appendColRows rs []
  | r :: rs, v :: vs => (r ++ [v]) :: appendColRows rs vs

/-- `df[n] = col`: replace the column labelled `n`, or append a new column
under that label when absent. -/
def Table.setCol (t : Table) (n : String) (col : List Cell) : Table :=
  if t.cols.contains n then ⟨t.cols, setColRows t.cols n t.rows col⟩
  else ⟨t.cols ++ [n], appendColRows t.rows col⟩

/-- `df.get(n)`: the values under the column labelled `n`, or `none` when
the label is absent. -/
def Table.getCol (t : Table) (n : String) : Option (List Cell) :=
  if t.cols.contains n then some (t.rows.map (fun r => lookupD t.cols r n))
  else none

/-- The cell of row `i` under the column labelled `n`. -/
def Table.getCell (t : Table) (n : String) (i : ℕ) : Option Cell :=
  (t.getCol n).bind (fun col => col[i]?)

/-- Positional filter by a Boolean mask, applied to the labels and to every
row alike when columns are dropped. -/
def maskFilter {α : Type*} : List Bool → List α → List α
  | true :: bs, a :: as => a :: maskFilter bs as
  | false :: bs, _ :: as => maskFilter bs as
  | _, _ => []

/-- `df.drop(columns=names)`: remove every column whose label is listed. -/
def Table.dropCols (t : Table) (names : List String) : Table :=
  let keep := t.cols.map (fun c => !names.contains c)
  ⟨maskFilter keep t.cols, t.rows.map (fun r => maskFilter keep r)⟩

/-- Per-cell in-place transformation of the column labelled `n`, skipped
when the label is absent (the script filters its column lists by
presence). -/
def Table.mapCol (t : Table) (n : String) (f : Cell → Cell) : Table :=
  if t.cols.contains n then
    ⟨t.cols, t.rows.map (fun r => rowSet t.cols r n (f (lookupD t.cols r n)))⟩
  else t

/-! ## The finalizer script -/

/-- `Series.combine_first`: the left value where non-missing, else the
right one. -/
def combine_first (a b : Cell) : Cell :=
  match a with
  | .na => b
  | _ => a

/-- `coalesce(*series)` = `reduce(combine_first)` over the two looked-up
variant columns.  `df.get` of an absent column returns `None`, on which
`combine_first` raises `AttributeError`, so the result exists only when
both columns are present. -/
def coalesce : Option (List Cell) → Option (List Cell) → Option (List Cell)
  | some a, some b => some (List.zipWith combine_first a b)
  | _, _ => none

/-- The ten `_standard`/`_misc` variant columns read by `build_canonical`. -/
def variant_cols : List String :=
  ["nationality_standard", "nationality_misc", "country_code_standard", "country_code_misc",
   "position_standard", "position_misc", "age_standard", "age_misc",
   "birth_year_standard", "birth_year_misc"]

/-- `build_canonical`: derive the five canonical identity columns by per-row
coalescing of the `_standard`/`_misc` variants, `_standard` preferred.  The
five assignments of the script read only variant columns and write only
canonical ones, so reading the ten variants up front is equivalent to the
sequential assignments.  A missing variant column makes `coalesce` raise,
modelled as an error result. -/
def build_canonical (t : Table) : Except String Table :=
  match coalesce (t.getCol "nationality_standard") (t.getCol "nationality_misc"),
      coalesce (t.getCol "country_code_standard") (t.getCol "country_code_misc"),
      coalesce (t.getCol "position_standard") (t.getCol "position_misc"),
      coalesce (t.getCol "age_standard") (t.getCol "age_misc"),
      coalesce (t.getCol "birth_year_standard") (t.getCol "birth_year_misc") with
  | some cn, some cc, some cp, some ca, some cb =>
    .ok (((((t.setCol "nationality" cn).setCol "country_code" cc).setCol
        "position" cp).setCol "age" ca).setCol "birth_year" cb)
  | _, _, _, _, _ => .error "AttributeError: NoneType has no attribute combine_first"

/-- The columns removed after canonicalization, in script order. -/
def to_drop : List String :=
  ["nationality_standard", "country_code_standard", "position_standard", "age_standard",
   "birth_year_standard", "nationality_misc", "country_code_misc", "position_misc",
   "age_misc", "birth_year_misc"]

/-- `drop_redundant_source_cols`: drop the listed columns that are present
(absence is not an error). -/
def drop_redundant_source_cols (t : Table) : Table := t.dropCols to_drop

/-- The canonical string identifiers tidied by step 3 of `main`. -/
def canon_str : List String :=
  ["player", "team", "league", "season", "nationality", "country_code", "position"]

/-- `clean_strings`: per present column, trim whitespace and replace the
empty string by a missing value. -/
def clean_strings (t : Table) (cs : List String) : Table :=
  cs.foldl (fun t c => t.mapCol c cleanCell) t

/-- One column step of `coerce_nullable_ints`: sanitize string values when
the column is object dtype, parse, and coerce failures to missing.  The
`Int64`-versus-float representation fallback of the script changes only the
storage type, never a value or its missingness, so it is not materialized
here. -/
def Table.coerceIntCol (t : Table) (n : String) : Table :=
  if t.cols.contains n then
    let obj := columnIsObject (t.rows.map (fun r => lookupD t.cols r n))
    ⟨t.cols, t.rows.map (fun r => rowSet t.cols r n (coerceIntCell obj (lookupD t.cols r n)))⟩
  else t

/-- The integer-typed columns of step 4 of `main`. -/
def int_cols : List String :=
  ["age", "birth_year", "matches_played", "starts", "minutes", "goals", "assists",
   "goals_and_assists", "non_penalty_goals", "pens_scored", "pens_attempted",
   "fouls_drawn", "offsides", "pkwon", "progressive_carries", "prgp"]

/-- `coerce_nullable_ints` over the present columns of the list. -/
def coerce_nullable_ints (t : Table) (cs : List String) : Table :=
  cs.foldl (fun t c => t.coerceIntCol c) t

/-- The float-typed columns of step 4 of `main`. -/
def float_cols : List String :=
  ["goals_per90", "assists_per90", "goals_and_assists_per90", "non_penalty_goals_per90",
   "xg_expected_goals", "npxg_non_penalty_xg", "xag_expected_assisted_goals",
   "npxg+xag", "non_penalty_goals_and_assists"]

/-- `coerce_floats`: plain numeric parsing of the listed present columns. -/
def coerce_floats (t : Table) (cs : List String) : Table :=
  cs.foldl (fun t c => t.mapCol c coerceFloatCell) t

/-! ## Deduplication -/

/-- Stable insertion into a list sorted by descending weight: the element
goes after every at-least-as-heavy element already placed and before the
first strictly lighter one. -/
def insertD {α : Type*} (w : α → ℕ) (a : α) : List α → List α
  | [] => [a]
  | b :: l => if w b ≤ w a then a :: b :: l else b :: insertD w a l

/-- Sort by descending weight, stable in the original order, modelling
`sort_values("_nnz", ascending=False)`.  This is the order produced by the
stable sort kinds of pandas (and by the default quicksort on arrays below
numpy's insertion-sort threshold); the script's default `kind="quicksort"`
carries no stability guarantee in general, which claim C2 is about. -/
def sortD {α : Type*} (w : α → ℕ) : List α → List α
  | [] => []
  | a :: l => insertD w a (sortD w l)

/-- Descending sortedness by a weight function. -/
def SortedD {α : Type*} (w : α → ℕ) (l : List α) : Prop :=
  l.Pairwise (fun a b => w b ≤ w a)

/-- `drop_duplicates(subset=key, keep="first")`: keep each row whose key was
not seen earlier. -/
def dropDupFirst {α κ : Type*} [DecidableEq κ] (key : α → κ) :
    List α → List κ → List α
  | [], _ => []
  | a :: l, seen =>
    if key a ∈ seen then dropDupFirst key l seen
    else a :: dropDupFirst key l (key a :: seen)

/-- The row processing of `dedupe_rows`: sort by descending completeness,
then keep the first row of each key. -/
def dedupe_core {α κ : Type*} [DecidableEq κ] (w : α → ℕ) (key : α → κ)
    (l : List α) : List α :=
  dropDupFirst key (sortD w l) []

/-- `df.notna().sum(axis=1)`: the count of non-missing cells of a row. -/
def rowNnz (r : List Cell) : ℕ := r.countP (fun c => !(c == Cell.na))

/-- The dedup key of a row: its cells under the four key labels. -/
def keyFn (cols : List String) (r : List Cell) : Cell × Cell × Cell × Cell :=
  (lookupD cols r "player", lookupD cols r "team", lookupD cols r "league",
    lookupD cols r "season")

/-- `dedupe_rows`: compute the completeness count of every row, sort by it
descending, keep the first row per `(player, team, league, season)` key.
The temporary `_nnz` column is assigned, used for the sort and dropped
again, so it is not materialized; `drop_duplicates(subset=...)` raises
`KeyError` when a key column is absent. -/
def dedupe_rows (t : Table) : Except String Table :=
  if t.cols.contains "player" && t.cols.contains "team" && t.cols.contains "league"
      && t.cols.contains "season" then
    .ok ⟨t.cols, dedupe_core rowNnz (keyFn t.cols) t.rows⟩
  else .error "KeyError"

/-! ## Season split, persist, and the whole run -/

/-- The season excluded from the historical export. -/
def CURRENT_SEASON : String := "2024-2025"

/-- One entry of the mask `df["season"] != CURRENT_SEASON`.  By the time the
split runs, `clean_strings` has made the season column `StringDtype`, so the
comparison yields a nullable boolean: a missing season gives `pd.NA`, and
boolean masking treats an `NA` entry as `False` — the row is dropped. -/
def seasonMask : Cell → Bool
  | .na => false
  | c => !(c == Cell.str CURRENT_SEASON)

/-- `df[df["season"] != CURRENT_SEASON]`: keep the rows whose mask entry is
`True` — a present season different from the literal.  Rows whose season
equals the literal and rows with a missing season (whose `NA` mask entry
counts as `False`) are both dropped; raises `KeyError` when the column is
absent. -/
def historical_split (t : Table) : Except String Table :=
  if t.cols.contains "season" then
    .ok ⟨t.cols, t.rows.filter (fun r => seasonMask (lookupD t.cols r "season"))⟩
  else .error "KeyError"

/-- Text rendering of a cell for CSV output. -/
def renderCell : Cell → String
  | .na => ""
  | .str s => s
  | .num q => if q.den = 1 then toString q.num else toString q

/-- `to_csv(index=False, header=True)`: the header line plus one line per
row. -/
def to_csv (t : Table) : List String :=
  String.intercalate "," t.cols ::
    t.rows.map (fun r => String.intercalate "," (r.map renderCell))

/-- `pd.read_csv` on one field: an empty field is a missing value (default
NA handling; the other NA sentinel strings of `read_csv` are not exercised
by the claims). -/
def loadCell (s : String) : Cell :=
  if s = "" then Cell.na else Cell.str s

/-- `pd.read_csv`: records become rows of loaded cells. -/
def load (header : List String) (records : List (List String)) : Table :=
  ⟨header, records.map (fun rec => rec.map loadCell)⟩

/-- Steps 2-6 of `main`: canonicalize, drop the variant columns, tidy
strings, coerce types, dedupe, split off the historical slice. -/
def pipeline_tables (header : List String) (records : List (List String)) :
    Except String Table := do
  let t1 ← build_canonical (load header records)
  let t2 := drop_redundant_source_cols t1
  let t3 := clean_strings t2 canon_str
  let t4 := coerce_nullable_ints t3 int_cols
  let t5 := coerce_floats t4 float_cols
  let t6 ← dedupe_rows t5
  historical_split t6

/-- The artifacts of one run: the CSV always written on completion, and the
parquet copy when the columnar writer is available. -/
structure RunResult where
  csv : List String
  parquet : Option (List String)
deriving DecidableEq

/-- `main`: a failed load propagates and aborts; otherwise the pipeline
runs, the historical slice is written as CSV, and then best-effort as
parquet — `parquet_ok` models whether `to_parquet` succeeds, and its
failure is caught without affecting the CSV. -/
def run (inp : Except String (List String × List (List String)))
    (parquet_ok : Bool) : Except String RunResult :=
  match inp with
  | .error e => .error e
  | .ok (header, records) =>
    match pipeline_tables header records with
    | .error e => .error e
    | .ok hist => .ok ⟨to_csv hist, if parquet_ok then some (to_csv hist) else none⟩

/-- The CSV artifact of a run, when the run completed. -/
def extractCsv : Except String RunResult → Option (List String)
  | .ok res => some res.csv
  | .error _ => none

/-! ## Deduplication lemmas -/

theorem dropDupFirst_key_not_seen {α κ : Type*} [DecidableEq κ] (key : α → κ) :
    ∀ (l : List α) (seen : List κ) (a : α), a ∈ dropDupFirst key l seen → key a ∉ seen := by
  intro l
  induction l with
  | nil => intro seen a h; simp [dropDupFirst] at h
  | cons b l ih =>
    intro seen a h
    by_cases hb : key b ∈ seen
    · rw [dropDupFirst, if_pos hb] at h
      exact ih seen a h
    · rw [dropDupFirst, if_neg hb] at h
      rcases List.mem_cons.mp h with rfl | h
      · exact hb
      · have := ih (key b :: seen) a h
        exact fun hs => this (List.mem_cons_of_mem _ hs)

theorem dropDupFirst_pairwise_key {α κ : Type*} [DecidableEq κ] (key : α → κ) :
    ∀ (l : List α) (seen : List κ),
      (dropDupFirst key l seen).Pairwise (fun a b => key a ≠ key b) := by
  intro l
  induction l with
  | nil => intro seen; simp [dropDupFirst]
  | cons b l ih =>
    intro seen
    by_cases hb : key b ∈ seen
    · rw [dropDupFirst, if_pos hb]
      exact ih seen
    · rw [dropDupFirst, if_neg hb]
      refine List.Pairwise.cons ?_ (ih _)
      intro x hx
      have := dropDupFirst_key_not_seen key l (key b :: seen) x hx
      exact fun he => this (he ▸ List.mem_cons_self _ _)

/-- C3.  After deduplication the `(player, team, league, season)` key is
unique: the key tuples of the output rows are pairwise distinct. -/
theorem claim_C3 (t t' : Table) (h : dedupe_rows t = .ok t') :
    t'.rows.Pairwise (fun a b => keyFn t.cols a ≠ keyFn t.cols b) := by
  unfold dedupe_rows at h
  by_cases hc : (t.cols.contains "player" && t.cols.contains "team"
      && t.cols.contains "league" && t.cols.contains "season") = true
  · rw [if_pos hc] at h
    cases h
    exact dropDupFirst_pairwise_key (keyFn t.cols) (sortD rowNnz t.rows) []
  · rw [if_neg hc] at h
    cases h

/-- Key-column table with one duplicated key, for exercising `claim_C3`. -/
def dupKeyTable : Table :=
  ⟨["player", "team", "league", "season"],
    [[.str "p", .str "t", .str "l", .str "s"], [.str "p", .str "t", .str "l", .str "s"]]⟩

/-- The deduplicated form of `dupKeyTable`. -/
def dupKeyTableOut : Table :=
  ⟨["player", "team", "league", "season"], [[.str "p", .str "t", .str "l", .str "s"]]⟩

theorem claim_C3_witness :
    dupKeyTableOut.rows.Pairwise
      (fun a b => keyFn dupKeyTable.cols a ≠ keyFn dupKeyTable.cols b) :=
  claim_C3 dupKeyTable dupKeyTableOut rfl

/-- Columns of the tie example for claim C2. -/
def tieCols : List String := ["player", "team", "league", "season", "goals"]

/-- One of two rows with equal key and equal completeness. -/
def tieRow1 : List Cell := [.str "p", .str "t", .str "l", .str "s", .str "1"]

/-- The other row: same key, same completeness, different payload. -/
def tieRow2 : List Cell := [.str "p", .str "t", .str "l", .str "s", .str "2"]

/-- C2.  The script only guarantees that the rows reaching
`drop_duplicates` are sorted by descending completeness — its
`sort_values` call uses the default, non-stable `kind="quicksort"`.  For
rows tied on completeness, descending sortedness does not determine the
kept row: the two orders of a tied pair are both sorted permutations of the
same input, yet deduplication keeps a different row for each.  Hence the
claimed "first occurrence in original input order wins" is not established
by the code. -/
theorem claim_C2_tie_break_underdetermined :
    [tieRow1, tieRow2].Perm [tieRow2, tieRow1] ∧
    SortedD rowNnz [tieRow1, tieRow2] ∧
    SortedD rowNnz [tieRow2, tieRow1] ∧
    rowNnz tieRow1 = rowNnz tieRow2 ∧
    keyFn tieCols tieRow1 = keyFn tieCols tieRow2 ∧
    dropDupFirst (keyFn tieCols) [tieRow1, tieRow2] []
      ≠ dropDupFirst (keyFn tieCols) [tieRow2, tieRow1] [] := by
  refine ⟨List.Perm.swap _ _ _, ?_, ?_, by decide, by decide, by decide⟩ <;>
    · unfold SortedD
      decide

/-! ## Season split: claim C4 -/

/-- A table with a missing-season row and a past-season row. -/
def naSeasonTable : Table := ⟨["season"], [[Cell.na], [Cell.str "2022-2023"]]⟩

/-- The historical slice of `naSeasonTable`: the missing-season row is
dropped. -/
def naSeasonOut : Table := ⟨["season"], [[Cell.str "2022-2023"]]⟩

/-- C4 counterexample.  The claim as stated is false: a deduplicated row
whose season cell is missing has a season value different from the
current-season literal, yet it is absent from the historical output — its
`NA` mask entry counts as `False` and the row is dropped. -/
theorem claim_C4_counterexample :
    lookupD naSeasonTable.cols [Cell.na] "season" ≠ Cell.str CURRENT_SEASON ∧
    [Cell.na] ∈ naSeasonTable.rows ∧
    historical_split naSeasonTable = .ok naSeasonOut ∧
    [Cell.na] ∉ naSeasonOut.rows := by
  exact ⟨by decide, by decide, rfl, by decide⟩

/-- C4 (amended).  No row of the historical output has the current-season
literal in its season cell; every deduplicated row whose season is present
and different from the literal is kept; and every deduplicated row with a
missing season is dropped as well, because its nullable-boolean mask entry
is `NA` and masking treats `NA` as `False`. -/
theorem claim_C4 (t t' : Table) (h : historical_split t = .ok t') :
    (∀ r ∈ t'.rows, lookupD t.cols r "season" ≠ Cell.str CURRENT_SEASON) ∧
    (∀ r ∈ t.rows, ∀ s, lookupD t.cols r "season" = Cell.str s →
      s ≠ CURRENT_SEASON → r ∈ t'.rows) ∧
    (∀ r ∈ t.rows, lookupD t.cols r "season" = Cell.na → r ∉ t'.rows) := by
  unfold historical_split at h
  by_cases hc : t.cols.contains "season" = true
  · rw [if_pos hc] at h
    cases h
    refine ⟨?_, ?_, ?_⟩
    · intro r hr he
      have hp := (List.mem_filter.mp hr).2
      rw [he] at hp
      exact absurd hp (by decide)
    · intro r hr s hs hne
      refine List.mem_filter.mpr ⟨hr, ?_⟩
      rw [hs]
      show (!(Cell.str s == Cell.str CURRENT_SEASON)) = true
      cases hbeq : Cell.str s == Cell.str CURRENT_SEASON with
      | false => rfl
      | true =>
        exact absurd (Cell.str.inj (eq_of_beq hbeq)) hne
    · intro r hr hna hmem
      have hp := (List.mem_filter.mp hmem).2
      rw [hna] at hp
      exact absurd hp (by decide)
  · rw [if_neg hc] at h
    cases h

/-- A three-season table (current, past, missing) for exercising
`claim_C4`. -/
def seasonTable : Table :=
  ⟨["season"], [[Cell.str "2024-2025"], [Cell.str "2022-2023"], [Cell.na]]⟩

/-- The historical slice of `seasonTable`: the current-season row and the
missing-season row are both dropped. -/
def seasonTableOut : Table := ⟨["season"], [[Cell.str "2022-2023"]]⟩

theorem claim_C4_witness :
    lookupD seasonTable.cols [Cell.str "2022-2023"] "season" ≠ Cell.str CURRENT_SEASON ∧
    [Cell.str "2022-2023"] ∈ seasonTableOut.rows ∧
    [Cell.na] ∉ seasonTableOut.rows := by
  have h := claim_C4 seasonTable seasonTableOut rfl
  exact ⟨h.1 _ (by decide),
    h.2.1 _ (by decide) "2022-2023" (by decide) (by decide),
    h.2.2 _ (by decide) (by decide)⟩

/-! ## Determinism: claim C8 -/

/-- The CSV artifact never depends on whether the parquet writer is
available. -/
theorem run_csv_independent (inp : Except String (List String × List (List String)))
    (p1 p2 : Bool) : extractCsv (run inp p1) = extractCsv (run inp p2) := by
  cases inp with
  | error e => rfl
  | ok pr =>
    obtain ⟨header, records⟩ := pr
    simp only [run]
    cases pipeline_tables header records <;> rfl

/-- C8.  The pipeline is a pure function of the loaded input: the CSV
artifact of a run does not depend on the one environment-dependent effect
(whether the parquet writer is available), so two runs over the same input
produce identical CSV output line for line. -/
theorem claim_C8 (inp : Except String (List String × List (List String)))
    (p1 p2 : Bool) : extractCsv (run inp p1) = extractCsv (run inp p2) :=
  run_csv_independent inp p1 p2

/-! ## Column presence -/

theorem contains_of_mem {l : List String} {a : String} (h : a ∈ l) :
    l.contains a = true := by
  rw [List.contains_eq_any_beq]
  exact List.any_eq_true.mpr ⟨a, h, by simp⟩

theorem mem_of_contains {l : List String} {a : String} (h : l.contains a = true) :
    a ∈ l := by
  rw [List.contains_eq_any_beq] at h
  obtain ⟨b, hb, hab⟩ := List.any_eq_true.mp h
  exact (eq_of_beq hab) ▸ hb

theorem mem_cols_setCol (t : Table) (n m : String) (col : List Cell)
    (h : m ∈ t.cols) : m ∈ (t.setCol n col).cols := by
  unfold Table.setCol
  split
  · exact h
  · exact List.mem_append_left _ h

theorem mem_maskFilter_map {keepf : String → Bool} :
    ∀ (cols : List String) (m : String), m ∈ cols → keepf m = true →
      m ∈ maskFilter (cols.map keepf) cols := by
  intro cols
  induction cols with
  | nil => simp
  | cons c cs ih =>
    intro m hm hk
    rcases List.mem_cons.mp hm with rfl | hm
    · simp only [List.map_cons]
      rw [hk]
      show m ∈ m :: maskFilter (cs.map keepf) cs
      exact List.mem_cons_self _ _
    · simp only [List.map_cons]
      cases hkc : keepf c
      · show m ∈ maskFilter (cs.map keepf) cs
        exact ih m hm hk
      · show m ∈ c :: maskFilter (cs.map keepf) cs
        exact List.mem_cons_of_mem _ (ih m hm hk)

theorem mem_cols_dropCols (t : Table) (names : List String) (m : String)
    (h : m ∈ t.cols) (hn : m ∉ names) : m ∈ (t.dropCols names).cols := by
  unfold Table.dropCols
  apply mem_maskFilter_map t.cols m h
  cases hc : names.contains m
  · rfl
  · exact absurd (mem_of_contains hc) hn

theorem cols_mapCol (t : Table) (n : String) (f : Cell → Cell) :
    (t.mapCol n f).cols = t.cols := by
  unfold Table.mapCol
  split <;> rfl

theorem cols_coerceIntCol (t : Table) (n : String) :
    (t.coerceIntCol n).cols = t.cols := by
  unfold Table.coerceIntCol
  split <;> rfl

theorem cols_foldl {g : Table → String → Table}
    (hg : ∀ t c, (g t c).cols = t.cols) :
    ∀ (cs : List String) (t : Table), (cs.foldl g t).cols = t.cols := by
  intro cs
  induction cs with
  | nil => intro t; rfl
  | cons c cs ih => intro t; rw [List.foldl_cons, ih, hg]

theorem cols_clean_strings (t : Table) (cs : List String) :
    (clean_strings t cs).cols = t.cols :=
  cols_foldl (fun t c => cols_mapCol t c cleanCell) cs t

theorem cols_coerce_nullable_ints (t : Table) (cs : List String) :
    (coerce_nullable_ints t cs).cols = t.cols :=
  cols_foldl cols_coerceIntCol cs t

theorem cols_coerce_floats (t : Table) (cs : List String) :
    (coerce_floats t cs).cols = t.cols :=
  cols_foldl (fun t c => cols_mapCol t c coerceFloatCell) cs t

/-! ## Canonicalization structure -/

theorem coalesce_getCol_some (t : Table) {a b : String}
    (ha : t.cols.contains a = true) (hb : t.cols.contains b = true) :
    coalesce (t.getCol a) (t.getCol b)
      = some (List.zipWith combine_first
          (t.rows.map (fun r => lookupD t.cols r a))
          (t.rows.map (fun r => lookupD t.cols r b))) := by
  unfold Table.getCol coalesce
  rw [if_pos ha, if_pos hb]

theorem coalesce_getCol_none_left (t : Table) {a : String} (b : String)
    (ha : t.cols.contains a = false) :
    coalesce (t.getCol a) (t.getCol b) = none := by
  unfold Table.getCol coalesce
  cases hb : t.cols.contains b <;> rw [ha] <;> rfl

theorem coalesce_getCol_none_right (t : Table) (a : String) {b : String}
    (hb : t.cols.contains b = false) :
    coalesce (t.getCol a) (t.getCol b) = none := by
  unfold Table.getCol coalesce
  cases hac : t.cols.contains a <;> rw [hb] <;> rfl

/-- Success analysis of `build_canonical`: an `ok` result determines the
five coalesced columns and the shape of the output table. -/
theorem build_canonical_ok_elim (t t' : Table) (h : build_canonical t = .ok t') :
    ∃ cn cc cp ca cb,
      coalesce (t.getCol "nationality_standard") (t.getCol "nationality_misc") = some cn ∧
      coalesce (t.getCol "country_code_standard") (t.getCol "country_code_misc") = some cc ∧
      coalesce (t.getCol "position_standard") (t.getCol "position_misc") = some cp ∧
      coalesce (t.getCol "age_standard") (t.getCol "age_misc") = some ca ∧
      coalesce (t.getCol "birth_year_standard") (t.getCol "birth_year_misc") = some cb ∧
      t' = ((((t.setCol "nationality" cn).setCol "country_code" cc).setCol
          "position" cp).setCol "age" ca).setCol "birth_year" cb := by
  unfold build_canonical at h
  split at h
  · next cn cc cp ca cb h1 h2 h3 h4 h5 =>
    exact ⟨cn, cc, cp, ca, cb, h1, h2, h3, h4, h5, (Except.ok.inj h).symm⟩
  · cases h

/-- `build_canonical` succeeds exactly when the ten variant columns are all
present. -/
theorem build_canonical_isOk_iff (u : Table) :
    (build_canonical u).isOk = true ↔ ∀ n ∈ variant_cols, n ∈ u.cols := by
  constructor
  · intro hok n hn
    by_contra hmem
    have hc : u.cols.contains n = false := by
      cases hcc : u.cols.contains n
      · rfl
      · exact absurd (mem_of_contains hcc) hmem
    simp only [variant_cols, List.mem_cons, List.not_mem_nil, or_false] at hn
    unfold build_canonical at hok
    rcases hn with rfl | rfl | rfl | rfl | rfl | rfl | rfl | rfl | rfl | rfl <;>
      (first
        | rw [coalesce_getCol_none_left u "nationality_misc" hc] at hok
        | rw [coalesce_getCol_none_right u "nationality_standard" hc] at hok
        | rw [coalesce_getCol_none_left u "country_code_misc" hc] at hok
        | rw [coalesce_getCol_none_right u "country_code_standard" hc] at hok
        | rw [coalesce_getCol_none_left u "position_misc" hc] at hok
        | rw [coalesce_getCol_none_right u "position_standard" hc] at hok
        | rw [coalesce_getCol_none_left u "age_misc" hc] at hok
        | rw [coalesce_getCol_none_right u "age_standard" hc] at hok
        | rw [coalesce_getCol_none_left u "birth_year_misc" hc] at hok
        | rw [coalesce_getCol_none_right u "birth_year_standard" hc] at hok) <;>
      (split at hok <;> simp_all [Except.isOk, Except.toBool])
  · intro hall
    have hc : ∀ n ∈ variant_cols, u.cols.contains n = true := fun n hn =>
      contains_of_mem (hall n hn)
    unfold build_canonical
    rw [coalesce_getCol_some u (hc _ (by decide)) (hc _ (by decide)),
      coalesce_getCol_some u (hc _ (by decide)) (hc _ (by decide)),
      coalesce_getCol_some u (hc _ (by decide)) (hc _ (by decide)),
      coalesce_getCol_some u (hc _ (by decide)) (hc _ (by decide)),
      coalesce_getCol_some u (hc _ (by decide)) (hc _ (by decide))]
    rfl

/-- C10.  Canonicalization needs the ten variant columns: `build_canonical`
succeeds exactly when all ten are present, and a run whose loaded header
lacks any of them aborts with an error, before any output exists. -/
theorem claim_C10 (t : Table) (header : List String)
    (records : List (List String)) (pq : Bool) :
    ((build_canonical t).isOk = true ↔ ∀ n ∈ variant_cols, n ∈ t.cols) ∧
    ((∃ n ∈ variant_cols, n ∉ header) →
      ∃ e, run (.ok (header, records)) pq = .error e) := by
  refine ⟨build_canonical_isOk_iff t, ?_⟩
  intro ⟨n, hn, hnh⟩
  obtain ⟨e, he⟩ : ∃ e, build_canonical (load header records) = .error e := by
    cases hb : build_canonical (load header records) with
    | error e => exact ⟨e, rfl⟩
    | ok t1 =>
      have hok : (build_canonical (load header records)).isOk = true := by
        rw [hb]; rfl
      have := (build_canonical_isOk_iff (load header records)).mp hok n hn
      exact absurd this hnh
  refine ⟨e, ?_⟩
  have hp : pipeline_tables header records = .error e := by
    unfold pipeline_tables
    rw [he]
    rfl
  simp only [run, hp]

theorem claim_C10_witness :
    ∃ e, run (.ok ((["player"], []) : List String × List (List String))) true
      = .error e :=
  (claim_C10 ⟨["player"], []⟩ ["player"] [] true).2
    ⟨"nationality_standard", by decide, by decide⟩

/-! ## Error propagation: claim C7 -/

theorem except_bind_ok {α β : Type} (a : α) (f : α → Except String β) :
    (Except.ok a >>= f) = f a := rfl

theorem pipeline_tables_eq (header : List String) (records : List (List String))
    (t1 : Table) (ht1 : build_canonical (load header records) = .ok t1) :
    pipeline_tables header records =
      dedupe_rows (coerce_floats (coerce_nullable_ints (clean_strings
        (drop_redundant_source_cols t1) canon_str) int_cols) float_cols)
        >>= fun t6 => historical_split t6 := by
  unfold pipeline_tables
  rw [ht1]
  exact except_bind_ok t1 _

/-- `historical_split` on a table with a season column. -/
theorem historical_split_ok (t : Table) (h : t.cols.contains "season" = true) :
    historical_split t = .ok ⟨t.cols, t.rows.filter
      (fun r => seasonMask (lookupD t.cols r "season"))⟩ := by
  unfold historical_split
  rw [if_pos h]

/-- With the ten variant columns and the four key columns present in the
header, every stage after load completes and the pipeline returns a table. -/
theorem pipeline_tables_ok (header : List String) (records : List (List String))
    (hvar : ∀ n ∈ variant_cols, n ∈ header)
    (hp : "player" ∈ header) (htm : "team" ∈ header) (hlg : "league" ∈ header)
    (hse : "season" ∈ header) :
    ∃ t, pipeline_tables header records = .ok t := by
  have hok : (build_canonical (load header records)).isOk = true :=
    (build_canonical_isOk_iff (load header records)).mpr (fun n hn => hvar n hn)
  obtain ⟨t1, ht1⟩ : ∃ t1, build_canonical (load header records) = .ok t1 := by
    cases hb : build_canonical (load header records) with
    | ok t1 => exact ⟨t1, rfl⟩
    | error e =>
      rw [hb] at hok
      exact absurd hok (by simp [Except.isOk, Except.toBool])
  have hmem1 : ∀ m, m ∈ header → m ∈ t1.cols := by
    intro m hm
    obtain ⟨cn, cc, cp, ca, cb, _, _, _, _, _, rfl⟩ := build_canonical_ok_elim _ _ ht1
    exact mem_cols_setCol _ _ _ _ (mem_cols_setCol _ _ _ _ (mem_cols_setCol _ _ _ _
      (mem_cols_setCol _ _ _ _ (mem_cols_setCol _ _ _ _ hm))))
  rw [pipeline_tables_eq header records t1 ht1]
  have hkeys : ∀ m, m ∈ header → m ∉ to_drop →
      m ∈ (coerce_floats (coerce_nullable_ints (clean_strings
        (drop_redundant_source_cols t1) canon_str) int_cols) float_cols).cols := by
    intro m hm hd
    rw [cols_coerce_floats, cols_coerce_nullable_ints, cols_clean_strings]
    exact mem_cols_dropCols t1 to_drop m (hmem1 m hm) hd
  generalize hT5 : coerce_floats (coerce_nullable_ints (clean_strings
    (drop_redundant_source_cols t1) canon_str) int_cols) float_cols = T5
  rw [hT5] at hkeys
  have hcond : (T5.cols.contains "player" && T5.cols.contains "team"
      && T5.cols.contains "league" && T5.cols.contains "season") = true := by
    rw [contains_of_mem (hkeys "player" hp (by decide)),
      contains_of_mem (hkeys "team" htm (by decide)),
      contains_of_mem (hkeys "league" hlg (by decide)),
      contains_of_mem (hkeys "season" hse (by decide))]
    rfl
  have hded : dedupe_rows T5
      = .ok ⟨T5.cols, dedupe_core rowNnz (keyFn T5.cols) T5.rows⟩ := by
    unfold dedupe_rows
    rw [if_pos hcond]
  rw [hded, except_bind_ok]
  exact ⟨_, historical_split_ok ⟨T5.cols, dedupe_core rowNnz (keyFn T5.cols) T5.rows⟩
    (contains_of_mem (hkeys "season" hse (by decide)))⟩

/-- A header with the four key columns and all ten variant columns. -/
def fullHeader : List String := ["player", "team", "league", "season"] ++ variant_cols

/-- A header lacking `birth_year_misc`: loadable, but canonicalization
raises. -/
def partialHeader : List String :=
  ["player", "team", "league", "season", "nationality_standard", "nationality_misc",
   "country_code_standard", "country_code_misc", "position_standard", "position_misc",
   "age_standard", "age_misc", "birth_year_standard"]

/-- C7 counterexample.  A run whose load step succeeded can still abort: a
header lacking one variant column loads fine, yet the run ends in an error
raised by canonicalization, so the load step is not the only step that can
halt the whole run. -/
theorem claim_C7_counterexample :
    (Except.ok (partialHeader, ([] : List (List String)))
      : Except String (List String × List (List String))).isOk = true ∧
    (run (.ok (partialHeader, [])) true).isOk = false := by
  exact ⟨rfl, by decide⟩

/-- C7 (amended).  A parquet-write failure is caught and leaves the CSV
artifact untouched, and with the ten variant columns and four key columns
present every step after load completes, parquet failing or not.  However,
load is not the only step that can abort the run: canonicalization raises
when a variant column is absent (see the counterexample), so the
best-effort guarantee holds only once the required columns are present. -/
theorem claim_C7 (header : List String) (records : List (List String))
    (hvar : ∀ n ∈ variant_cols, n ∈ header)
    (hp : "player" ∈ header) (htm : "team" ∈ header) (hlg : "league" ∈ header)
    (hse : "season" ∈ header) (pq : Bool) :
    (run (.ok (header, records)) pq).isOk = true ∧
    extractCsv (run (.ok (header, records)) false)
      = extractCsv (run (.ok (header, records)) true) := by
  obtain ⟨t, ht⟩ := pipeline_tables_ok header records hvar hp htm hlg hse
  constructor
  · simp only [run, ht]
    rfl
  · exact run_csv_independent _ false true

theorem claim_C7_witness :
    (run (.ok ((fullHeader, []) : List String × List (List String))) false).isOk = true ∧
    extractCsv (run (.ok (fullHeader, [])) false)
      = extractCsv (run (.ok (fullHeader, [])) true) :=
  claim_C7 fullHeader [] (by decide) (by decide) (by decide) (by decide) (by decide) false

/-! ## Cell tracking through column assignment -/

theorem contains_cons_ne {c n : String} {cs : List String}
    (h : (c :: cs).contains n = true) (hne : c ≠ n) : cs.contains n = true := by
  rcases List.mem_cons.mp (mem_of_contains h) with rfl | hm
  · exact absurd rfl hne
  · exact contains_of_mem hm

theorem contains_cons_false {c n : String} {cs : List String}
    (h : (c :: cs).contains n = false) : cs.contains n = false := by
  cases hcs : cs.contains n
  · rfl
  · rw [contains_of_mem (List.mem_cons_of_mem c (mem_of_contains hcs))] at h
    cases h

theorem head_ne_of_contains_false {c n : String} {cs : List String}
    (h : (c :: cs).contains n = false) : c ≠ n := by
  intro hcc
  subst hcc
  rw [contains_of_mem (List.mem_cons_self c cs)] at h
  cases h

theorem lookupD_rowSet_self :
    ∀ (cols : List String) (r : List Cell) (n : String) (v : Cell),
      cols.contains n = true → lookupD cols (rowSet cols r n v) n = v := by
  intro cols
  induction cols with
  | nil =>
    intro r n v h
    cases h
  | cons c cs ih =>
    intro r n v h
    by_cases hcn : c = n
    · simp only [rowSet, lookupD, if_pos hcn]
      rfl
    · simp only [rowSet, lookupD, if_neg hcn]
      show lookupD cs (rowSet cs r.tail n v) n = v
      exact ih r.tail n v (contains_cons_ne h hcn)

theorem lookupD_rowSet_ne :
    ∀ (cols : List String) (r : List Cell) (n m : String) (v : Cell), m ≠ n →
      lookupD cols (rowSet cols r n v) m = lookupD cols r m := by
  intro cols
  induction cols with
  | nil => intro r n m v _; rfl
  | cons c cs ih =>
    intro r n m v hmn
    by_cases hcn : c = n
    · have hcm : ¬ c = m := fun hcm => hmn ((hcm ▸ hcn : m = n))
      simp only [rowSet, lookupD, if_pos hcn, if_neg hcm]
      rfl
    · simp only [rowSet, lookupD, if_neg hcn]
      by_cases hcm : c = m
      · simp only [if_pos hcm]
        rfl
      · simp only [if_neg hcm]
        show lookupD cs (rowSet cs r.tail n v) m = lookupD cs r.tail m
        exact ih r.tail n m v hmn

theorem getElem?_setColRows :
    ∀ (cols : List String) (n : String) (rows : List (List Cell))
      (col : List Cell) (i : ℕ),
      (setColRows cols n rows col)[i]?
        = (rows[i]?).map (fun r => rowSet cols r n (col.getD i Cell.na)) := by
  intro cols n rows
  induction rows with
  | nil => intro col i; simp [setColRows]
  | cons r rs ih =>
    intro col i
    cases col with
    | nil =>
      cases i with
      | zero => simp [setColRows]
      | succ j => simpa [setColRows] using ih [] j
    | cons v vs =>
      cases i with
      | zero => simp [setColRows]
      | succ j => simpa [setColRows] using ih vs j

theorem getElem?_appendColRows :
    ∀ (rows : List (List Cell)) (col : List Cell) (i : ℕ),
      (appendColRows rows col)[i]?
        = (rows[i]?).map (fun r => r ++ [col.getD i Cell.na]) := by
  intro rows
  induction rows with
  | nil => intro col i; simp [appendColRows]
  | cons r rs ih =>
    intro col i
    cases col with
    | nil =>
      cases i with
      | zero => simp [appendColRows]
      | succ j => simpa [appendColRows] using ih [] j
    | cons v vs =>
      cases i with
      | zero => simp [appendColRows]
      | succ j => simpa [appendColRows] using ih vs j

theorem lookupD_append_self :
    ∀ (cols : List String) (r : List Cell) (n : String) (v : Cell),
      cols.contains n = false → r.length = cols.length →
      lookupD (cols ++ [n]) (r ++ [v]) n = v := by
  intro cols
  induction cols with
  | nil =>
    intro r n v _ hlen
    rw [List.eq_nil_of_length_eq_zero hlen]
    simp [lookupD]
  | cons c cs ih =>
    intro r n v hc hlen
    have hcn : c ≠ n := head_ne_of_contains_false hc
    cases r with
    | nil => simp at hlen
    | cons x xs =>
      show lookupD (c :: (cs ++ [n])) (x :: (xs ++ [v])) n = v
      simp only [lookupD, if_neg hcn]
      exact ih xs n v (contains_cons_false hc) (by simpa using hlen)

theorem lookupD_append_ne :
    ∀ (cols : List String) (r : List Cell) (n m : String) (v : Cell),
      m ≠ n → r.length = cols.length →
      lookupD (cols ++ [n]) (r ++ [v]) m = lookupD cols r m := by
  intro cols
  induction cols with
  | nil =>
    intro r n m v hmn hlen
    rw [List.eq_nil_of_length_eq_zero hlen]
    show lookupD [n] [v] m = lookupD [] [] m
    simp only [lookupD, if_neg (fun hh : n = m => hmn hh.symm)]
  | cons c cs ih =>
    intro r n m v hmn hlen
    cases r with
    | nil => simp at hlen
    | cons x xs =>
      show lookupD (c :: (cs ++ [n])) (x :: (xs ++ [v])) m
        = lookupD (c :: cs) (x :: xs) m
      by_cases hcm : c = m
      · simp only [lookupD, if_pos hcm]
        rfl
      · simp only [lookupD, if_neg hcm]
        exact ih xs n m v hmn (by simpa using hlen)

theorem rowSet_length :
    ∀ (cols : List String) (r : List Cell) (n : String) (v : Cell),
      r.length = cols.length → (rowSet cols r n v).length = cols.length := by
  intro cols
  induction cols with
  | nil => intro r n v h; simpa [rowSet] using h
  | cons c cs ih =>
    intro r n v h
    cases r with
    | nil => simp at h
    | cons x xs =>
      by_cases hcn : c = n
      · simp only [rowSet, if_pos hcn]
        simpa using h
      · simp only [rowSet, if_neg hcn]
        simp only [List.length_cons]
        rw [ih _ n v (by simpa using h)]

theorem WF_setCol (t : Table) (n : String) (col : List Cell) (h : t.WF) :
    (t.setCol n col).WF := by
  have hset : ∀ (rows : List (List Cell)) (c : List Cell) (r' : List Cell),
      r' ∈ setColRows t.cols n rows c → (∀ r ∈ rows, r.length = t.cols.length) →
      r'.length = t.cols.length := by
    intro rows
    induction rows with
    | nil => intro c r' hr' _; simp [setColRows] at hr'
    | cons r rs ih =>
      intro c r' hr' hall
      cases c with
      | nil =>
        rcases List.mem_cons.mp hr' with rfl | hm
        · exact rowSet_length _ _ _ _ (hall r (by simp))
        · exact ih [] r' hm (fun x hx => hall x (List.mem_cons_of_mem _ hx))
      | cons v vs =>
        rcases List.mem_cons.mp hr' with rfl | hm
        · exact rowSet_length _ _ _ _ (hall r (by simp))
        · exact ih vs r' hm (fun x hx => hall x (List.mem_cons_of_mem _ hx))
  have happ : ∀ (rows : List (List Cell)) (c : List Cell) (r' : List Cell),
      r' ∈ appendColRows rows c → (∀ r ∈ rows, r.length = t.cols.length) →
      r'.length = t.cols.length + 1 := by
    intro rows
    induction rows with
    | nil => intro c r' hr' _; simp [appendColRows] at hr'
    | cons r rs ih =>
      intro c r' hr' hall
      cases c with
      | nil =>
        rcases List.mem_cons.mp hr' with rfl | hm
        · simp [hall r (by simp)]
        · exact ih [] r' hm (fun x hx => hall x (List.mem_cons_of_mem _ hx))
      | cons v vs =>
        rcases List.mem_cons.mp hr' with rfl | hm
        · simp [hall r (by simp)]
        · exact ih vs r' hm (fun x hx => hall x (List.mem_cons_of_mem _ hx))
  unfold Table.setCol
  split
  · intro r' hr'
    exact hset t.rows col r' hr' h
  · intro r' hr'
    show r'.length = (t.cols ++ [n]).length
    simp only [List.length_append, List.length_cons, List.length_nil]
    exact happ t.rows col r' hr' h

theorem getCell_some (t : Table) (n : String) (i : ℕ)
    (h : t.cols.contains n = true) :
    t.getCell n i = (t.rows[i]?).map (fun r => lookupD t.cols r n) := by
  unfold Table.getCell Table.getCol
  rw [if_pos h]
  simp [Option.bind]

theorem getCell_none (t : Table) (n : String) (i : ℕ)
    (h : t.cols.contains n = false) :
    t.getCell n i = none := by
  unfold Table.getCell Table.getCol
  rw [if_neg (fun hc => Bool.false_ne_true (h.symm.trans hc))]
  rfl

theorem getCell_setCol_self (t : Table) (n : String) (col : List Cell)
    (hwf : t.WF) (i : ℕ) :
    (t.setCol n col).getCell n i
      = (t.rows[i]?).map (fun _ => col.getD i Cell.na) := by
  unfold Table.setCol
  split
  · next h =>
    rw [getCell_some ⟨t.cols, setColRows t.cols n t.rows col⟩ n i h]
    show ((setColRows t.cols n t.rows col)[i]?).map (fun r => lookupD t.cols r n) = _
    rw [getElem?_setColRows]
    cases hri : t.rows[i]? with
    | none => rfl
    | some r =>
      exact congrArg some (lookupD_rowSet_self t.cols r n (col.getD i Cell.na) h)
  · next h =>
    have hco : (t.cols ++ [n]).contains n = true :=
      contains_of_mem (List.mem_append_right _ (List.mem_cons_self n []))
    rw [getCell_some ⟨t.cols ++ [n], appendColRows t.rows col⟩ n i hco]
    show ((appendColRows t.rows col)[i]?).map (fun r => lookupD (t.cols ++ [n]) r n) = _
    rw [getElem?_appendColRows]
    cases hri : t.rows[i]? with
    | none => rfl
    | some r =>
      refine congrArg some (lookupD_append_self t.cols r n (col.getD i Cell.na) ?_
        (hwf r (List.getElem?_mem hri)))
      cases hcc : t.cols.contains n
      · rfl
      · exact absurd hcc h

theorem getCell_setCol_ne (t : Table) (n m : String) (col : List Cell)
    (hwf : t.WF) (i : ℕ) (hmn : m ≠ n) :
    (t.setCol n col).getCell m i = t.getCell m i := by
  unfold Table.setCol
  split
  · next hn =>
    cases hm : t.cols.contains m with
    | false =>
      rw [getCell_none ⟨t.cols, setColRows t.cols n t.rows col⟩ m i hm,
        getCell_none t m i hm]
    | true =>
      rw [getCell_some ⟨t.cols, setColRows t.cols n t.rows col⟩ m i hm,
        getCell_some t m i hm]
      show ((setColRows t.cols n t.rows col)[i]?).map (fun r => lookupD t.cols r m) = _
      rw [getElem?_setColRows]
      cases hri : t.rows[i]? with
      | none => rfl
      | some r =>
        exact congrArg some (lookupD_rowSet_ne t.cols r n m (col.getD i Cell.na) hmn)
  · next hn =>
    have hmm : (t.cols ++ [n]).contains m = t.cols.contains m := by
      cases hm : t.cols.contains m with
      | true => exact contains_of_mem (List.mem_append_left _ (mem_of_contains hm))
      | false =>
        cases hc : (t.cols ++ [n]).contains m with
        | false => rfl
        | true =>
          rcases List.mem_append.mp (mem_of_contains hc) with hin | hin
          · rw [contains_of_mem hin] at hm; cases hm
          · rcases List.mem_cons.mp hin with rfl | hin
            · exact absurd rfl hmn
            · cases hin
    cases hm : t.cols.contains m with
    | false =>
      rw [getCell_none ⟨t.cols ++ [n], appendColRows t.rows col⟩ m i (by rw [hmm, hm]),
        getCell_none t m i hm]
    | true =>
      rw [getCell_some ⟨t.cols ++ [n], appendColRows t.rows col⟩ m i (by rw [hmm, hm]),
        getCell_some t m i hm]
      show ((appendColRows t.rows col)[i]?).map (fun r => lookupD (t.cols ++ [n]) r m) = _
      rw [getElem?_appendColRows]
      cases hri : t.rows[i]? with
      | none => rfl
      | some r =>
        exact congrArg some (lookupD_append_ne t.cols r n m (col.getD i Cell.na) hmn
          (hwf r (List.getElem?_mem hri)))

theorem length_setColRows :
    ∀ (cols : List String) (n : String) (rows : List (List Cell)) (col : List Cell),
      (setColRows cols n rows col).length = rows.length := by
  intro cols n rows
  induction rows with
  | nil => intro col; rfl
  | cons r rs ih =>
    intro col
    cases col with
    | nil => simpa [setColRows] using ih []
    | cons v vs => simpa [setColRows] using ih vs

theorem length_appendColRows :
    ∀ (rows : List (List Cell)) (col : List Cell),
      (appendColRows rows col).length = rows.length := by
  intro rows
  induction rows with
  | nil => intro col; rfl
  | cons r rs ih =>
    intro col
    cases col with
    | nil => simpa [appendColRows] using ih []
    | cons v vs => simpa [appendColRows] using ih vs

theorem rows_length_setCol (t : Table) (n : String) (col : List Cell) :
    (t.setCol n col).rows.length = t.rows.length := by
  unfold Table.setCol
  split
  · exact length_setColRows t.cols n t.rows col
  · exact length_appendColRows t.rows col

theorem WF_build_canonical (t t1 : Table) (hwf : t.WF)
    (h : build_canonical t = .ok t1) : t1.WF := by
  obtain ⟨cn, cc, cp, ca, cb, _, _, _, _, _, rfl⟩ := build_canonical_ok_elim t t1 h
  exact WF_setCol _ _ _ (WF_setCol _ _ _ (WF_setCol _ _ _ (WF_setCol _ _ _
    (WF_setCol _ _ _ hwf))))

theorem coalesce_getCol_elim (t : Table) {a b : String} {c : List Cell}
    (h : coalesce (t.getCol a) (t.getCol b) = some c) :
    t.cols.contains a = true ∧ t.cols.contains b = true ∧
    c = List.zipWith combine_first (t.rows.map (fun r => lookupD t.cols r a))
        (t.rows.map (fun r => lookupD t.cols r b)) := by
  cases ha : t.cols.contains a with
  | false => rw [coalesce_getCol_none_left t b ha] at h; cases h
  | true =>
    cases hb : t.cols.contains b with
    | false => rw [coalesce_getCol_none_right t a hb] at h; cases h
    | true =>
      rw [coalesce_getCol_some t ha hb] at h
      exact ⟨rfl, rfl, (Option.some.inj h).symm⟩

/-- The per-row value of a coalesced column: `_standard` first, `_misc` as
fallback. -/
theorem coalesce_cell (t : Table) {a b : String} {c : List Cell} {i : ℕ}
    {s m : Cell} (hco : coalesce (t.getCol a) (t.getCol b) = some c)
    (hs : t.getCell a i = some s) (hm : t.getCell b i = some m) :
    c.getD i Cell.na = combine_first s m ∧ i < t.rows.length := by
  obtain ⟨ha, hb, hceq⟩ := coalesce_getCol_elim t hco
  rw [getCell_some t a i ha] at hs
  rw [getCell_some t b i hb] at hm
  obtain ⟨r, hr, hsr⟩ := Option.map_eq_some'.mp hs
  obtain ⟨r2, hr2, hmr⟩ := Option.map_eq_some'.mp hm
  have hrr : r2 = r := Option.some.inj ((hr2.symm).trans hr)
  subst hrr
  constructor
  · rw [hceq, List.getD_eq_getElem?_getD, List.getElem?_zipWith,
      List.getElem?_map, List.getElem?_map, hr]
    simp [hsr, hmr]
  · obtain ⟨hlt, _⟩ := List.getElem?_eq_some.mp hr
    exact hlt

theorem getElem?_rows_isSome (T : Table) (i : ℕ) (h : i < T.rows.length) :
    ∃ r, T.rows[i]? = some r := by
  cases hri : T.rows[i]? with
  | some r => exact ⟨r, rfl⟩
  | none => exact absurd (List.getElem?_eq_none_iff.mp hri) (by omega)

/-- The five canonical identity fields. -/
def canonical_fields : List String :=
  ["nationality", "country_code", "position", "age", "birth_year"]

/-- Cell-level contract of `build_canonical`: for every canonical field the
output cell is `combine_first` of the `_standard` and `_misc` cells of the
input row. -/
theorem build_canonical_getCell (t t1 : Table) (hwf : t.WF)
    (h : build_canonical t = .ok t1) (f : String) (hf : f ∈ canonical_fields)
    (i : ℕ) (s m : Cell)
    (hs : t.getCell (f ++ "_standard") i = some s)
    (hm : t.getCell (f ++ "_misc") i = some m) :
    t1.getCell f i = some (combine_first s m) := by
  obtain ⟨cn, cc, cp, ca, cb, h1, h2, h3, h4, h5, rfl⟩ := build_canonical_ok_elim t t1 h
  have w1 := WF_setCol t "nationality" cn hwf
  have w2 := WF_setCol _ "country_code" cc w1
  have w3 := WF_setCol _ "position" cp w2
  have w4 := WF_setCol _ "age" ca w3
  simp only [canonical_fields, List.mem_cons, List.not_mem_nil, or_false] at hf
  rcases hf with rfl | rfl | rfl | rfl | rfl
  · obtain ⟨hval, hlt⟩ := coalesce_cell t h1 hs hm
    rw [getCell_setCol_ne _ "birth_year" "nationality" cb w4 i (by decide),
      getCell_setCol_ne _ "age" "nationality" ca w3 i (by decide),
      getCell_setCol_ne _ "position" "nationality" cp w2 i (by decide),
      getCell_setCol_ne _ "country_code" "nationality" cc w1 i (by decide),
      getCell_setCol_self t "nationality" cn hwf i]
    obtain ⟨r0, hr0⟩ := getElem?_rows_isSome t i hlt
    rw [hr0]
    exact congrArg some hval
  · obtain ⟨hval, hlt⟩ := coalesce_cell t h2 hs hm
    rw [getCell_setCol_ne _ "birth_year" "country_code" cb w4 i (by decide),
      getCell_setCol_ne _ "age" "country_code" ca w3 i (by decide),
      getCell_setCol_ne _ "position" "country_code" cp w2 i (by decide),
      getCell_setCol_self _ "country_code" cc w1 i]
    obtain ⟨r0, hr0⟩ := getElem?_rows_isSome (t.setCol "nationality" cn) i
      (by rw [rows_length_setCol]; exact hlt)
    rw [hr0]
    exact congrArg some hval
  · obtain ⟨hval, hlt⟩ := coalesce_cell t h3 hs hm
    rw [getCell_setCol_ne _ "birth_year" "position" cb w4 i (by decide),
      getCell_setCol_ne _ "age" "position" ca w3 i (by decide),
      getCell_setCol_self _ "position" cp w2 i]
    obtain ⟨r0, hr0⟩ := getElem?_rows_isSome
      ((t.setCol "nationality" cn).setCol "country_code" cc) i
      (by rw [rows_length_setCol, rows_length_setCol]; exact hlt)
    rw [hr0]
    exact congrArg some hval
  · obtain ⟨hval, hlt⟩ := coalesce_cell t h4 hs hm
    rw [getCell_setCol_ne _ "birth_year" "age" cb w4 i (by decide),
      getCell_setCol_self _ "age" ca w3 i]
    obtain ⟨r0, hr0⟩ := getElem?_rows_isSome
      (((t.setCol "nationality" cn).setCol "country_code" cc).setCol "position" cp) i
      (by rw [rows_length_setCol, rows_length_setCol, rows_length_setCol]; exact hlt)
    rw [hr0]
    exact congrArg some hval
  · obtain ⟨hval, hlt⟩ := coalesce_cell t h5 hs hm
    rw [getCell_setCol_self _ "birth_year" cb w4 i]
    obtain ⟨r0, hr0⟩ := getElem?_rows_isSome
      ((((t.setCol "nationality" cn).setCol "country_code" cc).setCol
        "position" cp).setCol "age" ca) i
      (by rw [rows_length_setCol, rows_length_setCol, rows_length_setCol,
          rows_length_setCol]; exact hlt)
    rw [hr0]
    exact congrArg some hval

theorem WF_of_all (t : Table)
    (h : t.rows.all (fun r => r.length == t.cols.length) = true) : t.WF := by
  intro r hr
  have := List.all_eq_true.mp h r hr
  exact Nat.eq_of_beq_eq_true (by simpa using this)

/-- C1.  For every row and every canonical identity field: when the
`_standard` cell is non-missing the canonical cell equals it whatever the
`_misc` cell holds; when `_standard` is missing and `_misc` is present the
canonical cell equals `_misc`; when both are missing the canonical cell is
missing. -/
theorem claim_C1 (t t1 : Table) (hwf : t.WF) (h : build_canonical t = .ok t1)
    (f : String) (hf : f ∈ canonical_fields) (i : ℕ) (s m : Cell)
    (hs : t.getCell (f ++ "_standard") i = some s)
    (hm : t.getCell (f ++ "_misc") i = some m) :
    (s ≠ Cell.na → t1.getCell f i = some s) ∧
    (s = Cell.na → m ≠ Cell.na → t1.getCell f i = some m) ∧
    (s = Cell.na → m = Cell.na → t1.getCell f i = some Cell.na) := by
  have hc := build_canonical_getCell t t1 hwf h f hf i s m hs hm
  refine ⟨fun hsna => ?_, fun hsna _ => ?_, fun hsna hmna => ?_⟩
  · rw [hc]
    cases s with
    | na => exact absurd rfl hsna
    | str u => rfl
    | num q => rfl
  · subst hsna
    rw [hc]
    rfl
  · subst hsna
    subst hmna
    rw [hc]
    rfl

/-- A one-row table holding the ten variant columns, for exercising
`claim_C1`. -/
def canonWitnessTable : Table :=
  ⟨["nationality_standard", "nationality_misc", "country_code_standard", "country_code_misc",
    "position_standard", "position_misc", "age_standard", "age_misc",
    "birth_year_standard", "birth_year_misc"],
   [[Cell.str "DE", Cell.na, Cell.str "de", Cell.na, Cell.na, Cell.str "FW",
     Cell.na, Cell.str "24", Cell.str "1999", Cell.na]]⟩

/-- The canonicalized form of `canonWitnessTable`. -/
def canonWitnessOut : Table :=
  ⟨["nationality_standard", "nationality_misc", "country_code_standard", "country_code_misc",
    "position_standard", "position_misc", "age_standard", "age_misc",
    "birth_year_standard", "birth_year_misc", "nationality", "country_code",
    "position", "age", "birth_year"],
   [[Cell.str "DE", Cell.na, Cell.str "de", Cell.na, Cell.na, Cell.str "FW",
     Cell.na, Cell.str "24", Cell.str "1999", Cell.na, Cell.str "DE", Cell.str "de",
     Cell.str "FW", Cell.str "24", Cell.str "1999"]]⟩

theorem claim_C1_witness :
    canonWitnessOut.getCell "age" 0 = some (Cell.str "24") ∧
    canonWitnessOut.getCell "nationality" 0 = some (Cell.str "DE") := by
  have h1 := claim_C1 canonWitnessTable canonWitnessOut (WF_of_all _ (by decide)) rfl
    "age" (by decide) 0 Cell.na (Cell.str "24") (by decide) (by decide)
  have h2 := claim_C1 canonWitnessTable canonWitnessOut (WF_of_all _ (by decide)) rfl
    "nationality" (by decide) 0 (Cell.str "DE") Cell.na (by decide) (by decide)
  exact ⟨h1.2.1 rfl (by decide), h2.1 (by decide)⟩

/-! ## Cell tracking through the tidy and coercion stages -/

theorem getCell_mapRowSet_ne (t : Table) (n : String) (v : List Cell → Cell)
    (m : String) (i : ℕ) (hmn : m ≠ n) :
    (Table.mk t.cols (t.rows.map (fun r => rowSet t.cols r n (v r)))).getCell m i
      = t.getCell m i := by
  cases hm : t.cols.contains m with
  | false =>
    rw [getCell_none ⟨t.cols, t.rows.map (fun r => rowSet t.cols r n (v r))⟩ m i hm,
      getCell_none t m i hm]
  | true =>
    rw [getCell_some ⟨t.cols, t.rows.map (fun r => rowSet t.cols r n (v r))⟩ m i hm,
      getCell_some t m i hm]
    show ((t.rows.map (fun r => rowSet t.cols r n (v r)))[i]?).map
      (fun r => lookupD t.cols r m) = _
    rw [List.getElem?_map]
    cases hri : t.rows[i]? with
    | none => rfl
    | some r => exact congrArg some (lookupD_rowSet_ne t.cols r n m (v r) hmn)

theorem getCell_mapRowSet_self (t : Table) (n : String) (v : List Cell → Cell)
    (i : ℕ) (hc : t.cols.contains n = true) :
    (Table.mk t.cols (t.rows.map (fun r => rowSet t.cols r n (v r)))).getCell n i
      = (t.rows[i]?).map v := by
  rw [getCell_some ⟨t.cols, t.rows.map (fun r => rowSet t.cols r n (v r))⟩ n i hc]
  show ((t.rows.map (fun r => rowSet t.cols r n (v r)))[i]?).map
    (fun r => lookupD t.cols r n) = _
  rw [List.getElem?_map]
  cases hri : t.rows[i]? with
  | none => rfl
  | some r => exact congrArg some (lookupD_rowSet_self t.cols r n (v r) hc)

theorem getCell_mapCol_ne (t : Table) (n : String) (f : Cell → Cell) (m : String)
    (i : ℕ) (hmn : m ≠ n) : (t.mapCol n f).getCell m i = t.getCell m i := by
  unfold Table.mapCol
  split
  · exact getCell_mapRowSet_ne t n _ m i hmn
  · rfl

theorem getCell_coerceIntCol_ne (t : Table) (n m : String) (i : ℕ) (hmn : m ≠ n) :
    (t.coerceIntCol n).getCell m i = t.getCell m i := by
  unfold Table.coerceIntCol
  split
  · exact getCell_mapRowSet_ne t n _ m i hmn
  · rfl

theorem getCell_coerceIntCol_self (t : Table) (n : String) (i : ℕ)
    (hc : t.cols.contains n = true) :
    (t.coerceIntCol n).getCell n i
      = (t.rows[i]?).map (fun r => coerceIntCell
          (columnIsObject (t.rows.map (fun r => lookupD t.cols r n)))
          (lookupD t.cols r n)) := by
  unfold Table.coerceIntCol
  rw [if_pos hc]
  exact getCell_mapRowSet_self t n _ i hc

theorem getCell_clean_strings_not_mem :
    ∀ (cs : List String) (t : Table) (m : String) (i : ℕ), m ∉ cs →
      (clean_strings t cs).getCell m i = t.getCell m i := by
  intro cs
  induction cs with
  | nil => intro t m i _; rfl
  | cons c cs ih =>
    intro t m i hm
    show (clean_strings (t.mapCol c cleanCell) cs).getCell m i = _
    rw [ih _ m i (fun hx => hm (List.mem_cons_of_mem _ hx))]
    exact getCell_mapCol_ne t c cleanCell m i
      (fun hx => hm (hx ▸ List.mem_cons_self _ _))

theorem getCell_coerce_ints_not_mem :
    ∀ (cs : List String) (t : Table) (m : String) (i : ℕ), m ∉ cs →
      (coerce_nullable_ints t cs).getCell m i = t.getCell m i := by
  intro cs
  induction cs with
  | nil => intro t m i _; rfl
  | cons c cs ih =>
    intro t m i hm
    show (coerce_nullable_ints (t.coerceIntCol c) cs).getCell m i = _
    rw [ih _ m i (fun hx => hm (List.mem_cons_of_mem _ hx))]
    exact getCell_coerceIntCol_ne t c m i (fun hx => hm (hx ▸ List.mem_cons_self _ _))

theorem mem_of_mem_maskFilter {α : Type*} :
    ∀ (mask : List Bool) (l : List α) (x : α), x ∈ maskFilter mask l → x ∈ l := by
  intro mask
  induction mask with
  | nil => intro l x h; simp [maskFilter] at h
  | cons b bs ih =>
    intro l x h
    cases l with
    | nil =>
      cases b <;> simp [maskFilter] at h
    | cons a as =>
      cases b with
      | false => exact List.mem_cons_of_mem a (ih as x h)
      | true =>
        rcases List.mem_cons.mp h with rfl | hm
        · exact List.mem_cons_self _ _
        · exact List.mem_cons_of_mem a (ih as x hm)

theorem lookupD_maskFilter (keepf : String → Bool) :
    ∀ (cols : List String) (r : List Cell) (m : String), keepf m = true →
      r.length = cols.length →
      lookupD (maskFilter (cols.map keepf) cols) (maskFilter (cols.map keepf) r) m
        = lookupD cols r m := by
  intro cols
  induction cols with
  | nil =>
    intro r m _ hlen
    rw [List.eq_nil_of_length_eq_zero hlen]
    rfl
  | cons c cs ih =>
    intro r m hk hlen
    cases r with
    | nil => simp at hlen
    | cons x xs =>
      simp only [List.map_cons]
      cases hkc : keepf c with
      | false =>
        have hcm : c ≠ m := fun hcm => by rw [hcm, hk] at hkc; cases hkc
        show lookupD (maskFilter (cs.map keepf) cs) (maskFilter (cs.map keepf) xs) m
          = lookupD (c :: cs) (x :: xs) m
        rw [ih xs m hk (by simpa using hlen)]
        simp only [lookupD, if_neg hcm]
        rfl
      | true =>
        show lookupD (c :: maskFilter (cs.map keepf) cs)
          (x :: maskFilter (cs.map keepf) xs) m = lookupD (c :: cs) (x :: xs) m
        by_cases hcm : c = m
        · simp only [lookupD, if_pos hcm]
          rfl
        · simp only [lookupD, if_neg hcm]
          exact ih xs m hk (by simpa using hlen)

theorem getCell_dropCols (t : Table) (names : List String) (m : String) (i : ℕ)
    (hm : names.contains m = false) (hwf : t.WF) :
    (t.dropCols names).getCell m i = t.getCell m i := by
  unfold Table.dropCols
  have hkm : (fun c => !names.contains c) m = true := by
    show (!names.contains m) = true
    rw [hm]
    rfl
  cases hcm : t.cols.contains m with
  | false =>
    have hcm2 : (maskFilter (t.cols.map (fun c => !names.contains c)) t.cols).contains m
        = false := by
      cases hc2 : (maskFilter (t.cols.map (fun c => !names.contains c)) t.cols).contains m
      · rfl
      · rw [contains_of_mem (mem_of_mem_maskFilter _ _ m (mem_of_contains hc2))] at hcm
        cases hcm
    rw [getCell_none _ m i hcm2, getCell_none t m i hcm]
  | true =>
    have hcm2 : (maskFilter (t.cols.map (fun c => !names.contains c)) t.cols).contains m
        = true :=
      contains_of_mem (mem_maskFilter_map t.cols m (mem_of_contains hcm) hkm)
    rw [getCell_some _ m i hcm2, getCell_some t m i hcm]
    show ((t.rows.map (maskFilter (t.cols.map (fun c => !names.contains c))))[i]?).map
      (fun r => lookupD (maskFilter (t.cols.map (fun c => !names.contains c)) t.cols) r m)
      = _
    rw [List.getElem?_map]
    cases hri : t.rows[i]? with
    | none => rfl
    | some r =>
      exact congrArg some (lookupD_maskFilter (fun c => !names.contains c) t.cols r m hkm
        (hwf r (List.getElem?_mem hri)))

theorem mem_cols_setCol_self (t : Table) (n : String) (col : List Cell) :
    n ∈ (t.setCol n col).cols := by
  unfold Table.setCol
  split
  · next h => exact mem_of_contains h
  · exact List.mem_append_right _ (List.mem_cons_self n [])

/-- The coercion fold on the integer columns turns a string-digit age cell
into the numeric age. -/
theorem coerce_ints_age_cell (t3 : Table) (i : ℕ) (c : Cell)
    (hc3 : t3.cols.contains "age" = true)
    (hcell : t3.getCell "age" i = some c)
    (hc24 : ∀ b, coerceIntCell b c = Cell.num 24) :
    (coerce_nullable_ints t3 int_cols).getCell "age" i = some (Cell.num 24) := by
  have hstep : coerce_nullable_ints t3 int_cols
      = coerce_nullable_ints (t3.coerceIntCol "age")
        ["birth_year", "matches_played", "starts", "minutes", "goals", "assists",
         "goals_and_assists", "non_penalty_goals", "pens_scored", "pens_attempted",
         "fouls_drawn", "offsides", "pkwon", "progressive_carries", "prgp"] := by
    unfold coerce_nullable_ints
    rw [show int_cols
        = "age" :: ["birth_year", "matches_played", "starts", "minutes", "goals",
          "assists", "goals_and_assists", "non_penalty_goals", "pens_scored",
          "pens_attempted", "fouls_drawn", "offsides", "pkwon",
          "progressive_carries", "prgp"] from rfl]
    rw [List.foldl_cons]
  rw [hstep]
  rw [getCell_coerce_ints_not_mem _ _ "age" i (by decide)]
  rw [getCell_coerceIntCol_self t3 "age" i hc3]
  rw [getCell_some t3 "age" i hc3] at hcell
  obtain ⟨r, hr, hlr⟩ := Option.map_eq_some'.mp hcell
  rw [hr]
  refine congrArg some ?_
  show coerceIntCell (columnIsObject (List.map (fun r => lookupD t3.cols r "age") t3.rows))
    (lookupD t3.cols r "age") = Cell.num 24
  rw [hlr]
  exact hc24 _

/-- C6.  A row whose raw `age_standard` field is the empty string and whose
`age_misc` field is `"24"` ends canonicalization, tidying and coercion with
a canonical age of 24: the loader turns the empty field into a missing
value, the coalesce falls back to the `_misc` value, and integer coercion
parses it. -/
theorem claim_C6 (header : List String) (records : List (List String))
    (hwf : (load header records).WF) (t1 : Table)
    (h1 : build_canonical (load header records) = .ok t1) (i : ℕ)
    (hs : (load header records).getCell "age_standard" i = some (loadCell ""))
    (hm : (load header records).getCell "age_misc" i = some (loadCell "24")) :
    (coerce_nullable_ints (clean_strings (drop_redundant_source_cols t1) canon_str)
      int_cols).getCell "age" i = some (Cell.num 24) := by
  have hage_t1 : t1.getCell "age" i = some (Cell.str "24") := by
    have hcf := build_canonical_getCell (load header records) t1 hwf h1 "age"
      (by decide) i (loadCell "") (loadCell "24") hs hm
    exact hcf.trans (by decide)
  have hmem_age : "age" ∈ t1.cols := by
    obtain ⟨cn, cc, cp, ca, cb, _, _, _, _, _, rfl⟩ := build_canonical_ok_elim _ _ h1
    exact mem_cols_setCol _ _ _ _ (mem_cols_setCol_self _ "age" ca)
  have hwf1 : t1.WF := WF_build_canonical _ _ hwf h1
  have hdrop : (drop_redundant_source_cols t1).getCell "age" i = t1.getCell "age" i :=
    getCell_dropCols t1 to_drop "age" i (by decide) hwf1
  have hclean : (clean_strings (drop_redundant_source_cols t1) canon_str).getCell "age" i
      = (drop_redundant_source_cols t1).getCell "age" i :=
    getCell_clean_strings_not_mem canon_str _ "age" i (by decide)
  have hc3 : (clean_strings (drop_redundant_source_cols t1) canon_str).cols.contains
      "age" = true := by
    rw [cols_clean_strings]
    exact contains_of_mem (mem_cols_dropCols t1 to_drop "age" hmem_age (by decide))
  exact coerce_ints_age_cell _ i (Cell.str "24") hc3
    (hclean.trans (hdrop.trans hage_t1)) (fun b => by cases b <;> decide)

/-- A one-row raw input whose `age_standard` field is empty and whose
`age_misc` field is `"24"`. -/
def c6header : List String :=
  ["nationality_standard", "nationality_misc", "country_code_standard", "country_code_misc",
   "position_standard", "position_misc", "age_standard", "age_misc",
   "birth_year_standard", "birth_year_misc"]

/-- The single raw record of the C6 scenario. -/
def c6record : List String :=
  ["DE", "", "de", "", "FW", "", "", "24", "1999", ""]

/-- The canonicalized table of the C6 scenario. -/
def c6table1 : Table :=
  ⟨["nationality_standard", "nationality_misc", "country_code_standard", "country_code_misc",
    "position_standard", "position_misc", "age_standard", "age_misc",
    "birth_year_standard", "birth_year_misc", "nationality", "country_code",
    "position", "age", "birth_year"],
   [[Cell.str "DE", Cell.na, Cell.str "de", Cell.na, Cell.str "FW", Cell.na,
     Cell.na, Cell.str "24", Cell.str "1999", Cell.na, Cell.str "DE", Cell.str "de",
     Cell.str "FW", Cell.str "24", Cell.str "1999"]]⟩

theorem claim_C6_witness :
    (coerce_nullable_ints (clean_strings (drop_redundant_source_cols c6table1) canon_str)
      int_cols).getCell "age" 0 = some (Cell.num 24) :=
  claim_C6 c6header [c6record] (WF_of_all _ (by decide)) c6table1 rfl 0
    (by decide) (by decide)

end PkwonFinalize
